import Mathlib

/-!
Verification of the port-specification expander and scan-result pipeline of
`cmd/portscan/main.go`.

Strings are modelled as `List Char`; Go `int` is modelled as `Int` (64-bit
overflow in `strconv.Atoi` is made explicit where it matters).  Fallible Go
functions returning `(T, error)` are modelled as `Except String T`.
-/

namespace Portscan

open scoped List

instance {ε α : Type} [DecidableEq ε] [DecidableEq α] : DecidableEq (Except ε α) := fun a b =>
  match a, b with
  | .error x, .error y =>
    if h : x = y then .isTrue (by rw [h]) else .isFalse (by intro hc; cases hc; exact h rfl)
  | .error _, .ok _ => .isFalse (by intro hc; cases hc)
  | .ok _, .error _ => .isFalse (by intro hc; cases hc)
  | .ok x, .ok y =>
    if h : x = y then .isTrue (by rw [h]) else .isFalse (by intro hc; cases hc; exact h rfl)

/-- Go `unicode.IsSpace`: the Unicode White_Space code points, as used by
`strings.TrimSpace`. -/
def goIsSpace (c : Char) : Bool :=
  let n := c.toNat
  n = 9 || n = 10 || n = 11 || n = 12 || n = 13 || n = 32 ||
  n = 0x85 || n = 0xA0 || n = 0x1680 || (0x2000 ≤ n && n ≤ 0x200A) ||
  n = 0x2028 || n = 0x2029 || n = 0x202F || n = 0x205F || n = 0x3000

/-- Go `strings.TrimSpace`: drop leading and trailing white space. -/
def trimSpace (l : List Char) : List Char :=
  ((l.dropWhile goIsSpace).reverse.dropWhile goIsSpace).reverse

/-- Go `strings.Split(s, sep)` for a one-character separator: always returns
one more piece than there are separators (so `Split("", ",") = [""]`,
`Split("a,", ",") = ["a", ""]`). -/
def splitCh (sep : Char) : List Char → List (List Char)
  | [] => [[]]
  | c :: cs =>
    if c = sep then [] :: splitCh sep cs
    else
      match splitCh sep cs with
      | [] => [[c]]
      | t :: ts => (c :: t) :: ts

/-- Go `strings.SplitN(s, sep, 2)` for a one-character separator, restricted to
the case where the separator occurs: split at the FIRST occurrence only.
Returns `none` when the separator does not occur (Go would return a
one-element slice there). -/
def splitFirst (sep : Char) : List Char → Option (List Char × List Char)
  | [] => none
  | c :: cs =>
    if c = sep then some ([], cs)
    else
      match splitFirst sep cs with
      | none => none
      | some (l, r) => some (c :: l, r)

/-- Is `c` an ASCII decimal digit? -/
def isDigitCh (c : Char) : Bool := 48 ≤ c.toNat && c.toNat ≤ 57

/-- Numeric value of a decimal digit character. -/
def digitVal (c : Char) : Nat := c.toNat - 48

/-- Value of a string of decimal digits, most significant first. -/
def valOfDigits (l : List Char) : Nat :=
  l.foldl (fun a c => a * 10 + digitVal c) 0

/-- Parse a non-empty all-digit string to its value; `none` otherwise. -/
def parseDigits (l : List Char) : Option Nat :=
  if !l.isEmpty && l.all isDigitCh then some (valOfDigits l) else none

/-- Go `strconv.Atoi` (= `ParseInt(s, 10, 64)` on a 64-bit platform): an
optional leading `+` or `-` sign followed by at least one decimal digit; the
value must fit in a signed 64-bit integer, otherwise an error is returned
(and `parseSinglePort` treats any error the same way). -/
def atoi : List Char → Except String Int
  | [] => .error "invalid syntax"
  | c :: cs =>
    if c = '+' then
      match parseDigits cs with
      | none => .error "invalid syntax"
      | some v => if v ≤ 2 ^ 63 - 1 then .ok (v : Int) else .error "value out of range"
    else if c = '-' then
      match parseDigits cs with
      | none => .error "invalid syntax"
      | some v => if v ≤ 2 ^ 63 then .ok (-(v : Int)) else .error "value out of range"
    else
      match parseDigits (c :: cs) with
      | none => .error "invalid syntax"
      | some v => if v ≤ 2 ^ 63 - 1 then .ok (v : Int) else .error "value out of range"

/-- `parseSinglePort` (main.go:36-49): trim, reject empty, `strconv.Atoi`,
then require the value to lie in [1, 65535]. -/
def parseSinglePort (token : List Char) : Except String Int :=
  if trimSpace token = [] then .error "empty port token"
  else
    match atoi (trimSpace token) with
    | .error _ => .error "invalid port"
    | .ok n => if 1 ≤ n ∧ n ≤ 65535 then .ok n else .error "port out of range"

/-- `parsePortRange` (main.go:51-81): trim, reject empty, split at the first
hyphen (`strings.SplitN(token, "-", 2)`), trim both sides, reject an empty
bound, parse both bounds with `parseSinglePort`, reject `start > end`. -/
def parsePortRange (token : List Char) : Except String (Int × Int) :=
  if trimSpace token = [] then .error "empty range token"
  else
    match splitFirst '-' (trimSpace token) with
    | none => .error "invalid range (need A-B)"
    | some lr =>
      if trimSpace lr.1 = [] ∨ trimSpace lr.2 = [] then .error "invalid range bounds"
      else
        match parseSinglePort (trimSpace lr.1) with
        | .error _ => .error "invalid left bound"
        | .ok a =>
          match parseSinglePort (trimSpace lr.2) with
          | .error _ => .error "invalid right bound"
          | .ok b => if a > b then .error "range start > end" else .ok (a, b)

/-- One iteration of the token loop in `expandPortSpec` (main.go:93-112):
trim the token, reject an empty token, classify as a range iff it contains a
hyphen, and parse accordingly. -/
def tokenStep (tok : List Char) : Except String (Int ⊕ (Int × Int)) :=
  if trimSpace tok = [] then .error "empty token"
  else if '-' ∈ trimSpace tok then
    match parsePortRange (trimSpace tok) with
    | .error e => .error e
    | .ok ab => .ok (.inr ab)
  else
    match parseSinglePort (trimSpace tok) with
    | .error e => .error e
    | .ok n => .ok (.inl n)

/-- The token loop of `expandPortSpec` (main.go:90-112): accumulate single
ports and ranges in order, aborting at the first bad token. -/
def collectTokens : List (List Char) → Except String (List Int × List (Int × Int))
  | [] => .ok ([], [])
  | tok :: rest =>
    match tokenStep tok with
    | .error e => .error e
    | .ok v =>
      match collectTokens rest with
      | .error e => .error e
      | .ok sr =>
        match v with
        | .inl n => .ok (n :: sr.1, sr.2)
        | .inr ab => .ok (sr.1, ab :: sr.2)

/-- The ports covered by the Go loop `for p := start; p <= end; p++`
(main.go:121-123): the inclusive integer interval `[a, b]`. -/
def rangeList (a b : Int) : List Int :=
  (List.range (b + 1 - a).toNat).map fun (i : Nat) => a + (i : Int)

/-- Collecting the `seen` map's keys and applying `sort.Ints`
(main.go:114-130) yields the ascending duplicate-free list of the distinct
values fed into the map; `insertionSort` of `dedup` is that list. -/
def sortedDedup (l : List Int) : List Int :=
  (l.dedup).insertionSort (· ≤ ·)

/-- `expandPortSpec` (main.go:83-133): trim the spec, reject an empty spec,
split on commas, parse every token, union all single ports and all range
expansions into one set, and return it sorted ascending. -/
def expandPortSpec (spec : List Char) : Except String (List Int) :=
  if trimSpace spec = [] then .error "empty ports spec"
  else
    match collectTokens (splitCh ',' (trimSpace spec)) with
    | .error e => .error e
    | .ok sr => .ok (sortedDedup (sr.1 ++ sr.2.flatMap fun ab => rangeList ab.1 ab.2))

/-- Does an `Except` hold an error? -/
def isErr {ε α : Type} : Except ε α → Bool
  | .error _ => true
  | .ok _ => false

/-- `worker` (main.go:27-34): a worker publishes exactly those ports of its
share of the queue for which `scanPort` succeeds; `scanPort` (main.go:17-25)
performs network I/O and is modelled by the reachability oracle `openp`. -/
def workerOutputs (openp : Int → Bool) (share : List Int) : List Int :=
  share.filter openp

/-- The drain-and-sort tail of `main` (main.go:216-224): collect every
published result and apply `sort.Ints`. -/
def finalOpenPorts (received : List Int) : List Int :=
  received.insertionSort (· ≤ ·)

/-- Tokens joined by a separator character (inverse of `splitCh` on
separator-free tokens); used to state the canonical comma-joined rendering. -/
def joinSep (sep : Char) : List (List Char) → List Char
  | [] => []
  | [t] => t
  | t :: ts => t ++ sep :: joinSep sep ts

/-- The ASCII character of a decimal digit value. -/
def digitChar (m : Nat) : Char := Char.ofNat (48 + m)

/-- Decimal digits of a positive number, most significant first, with
structural fuel (`fuel ≥ n` suffices). -/
def toDigitsAux : Nat → Nat → List Char
  | 0, _ => []
  | fuel + 1, n => if n = 0 then [] else toDigitsAux fuel (n / 10) ++ [digitChar (n % 10)]

/-- Canonical decimal rendering of a natural number. -/
def natToDigits (n : Nat) : List Char :=
  if n = 0 then ['0'] else toDigitsAux n n

/-- Canonical decimal rendering of a non-negative `Int` (a port number). -/
def intToDigits (n : Int) : List Char := natToDigits n.toNat

/-- The canonical comma-joined rendering of a port list. -/
def renderPorts (S : List Int) : List Char :=
  joinSep ',' (S.map intToDigits)

/-- The single ports contributed by a token list, in order (the `singles`
slice of main.go:90-111). -/
def singlesOf (ts : List (List Char)) : List Int :=
  ts.filterMap fun t =>
    match tokenStep t with
    | .ok (.inl n) => some n
    | _ => none

/-- The ranges contributed by a token list, in order (the `ranges` slice of
main.go:90-111). -/
def rangesOf (ts : List (List Char)) : List (Int × Int) :=
  ts.filterMap fun t =>
    match tokenStep t with
    | .ok (.inr ab) => some ab
    | _ => none

/-- All numeric values of a token parse under `atoi` and lie in [1, 65535]:
for a range token (one containing a hyphen) both bounds, for any other token
the single port value. -/
def tokenNumbersOk (tok : List Char) : Bool :=
  if '-' ∈ trimSpace tok then
    match splitFirst '-' (trimSpace tok) with
    | none => false
    | some lr =>
      (match atoi (trimSpace lr.1) with
       | .ok a => decide (1 ≤ a ∧ a ≤ 65535)
       | .error _ => false) &&
      (match atoi (trimSpace lr.2) with
       | .ok b => decide (1 ≤ b ∧ b ≤ 65535)
       | .error _ => false)
  else
    match atoi (trimSpace tok) with
    | .ok n => decide (1 ≤ n ∧ n ≤ 65535)
    | .error _ => false

/-! ### Lemmas about `trimSpace` -/

theorem dropWhile_idem (p : Char → Bool) (l : List Char) :
    (l.dropWhile p).dropWhile p = l.dropWhile p := by
  cases h : l.dropWhile p with
  | nil => simp
  | cons c cs =>
    have hc : p c = false := by
      have h2 := List.head?_dropWhile_not p l
      rw [h] at h2
      simpa using h2
    simp [List.dropWhile_cons, hc]

theorem dropWhile_eq_self_of_forall {p : Char → Bool} {l : List Char}
    (h : ∀ c ∈ l, p c = false) : l.dropWhile p = l := by
  cases l with
  | nil => simp
  | cons c cs => simp [List.dropWhile_cons, h c (List.mem_cons_self c cs)]

theorem trimSpace_nil : trimSpace [] = [] := rfl

theorem goIsSpace_of_head?_trimSpace {l : List Char} {c : Char}
    (h : (trimSpace l).head? = some c) : goIsSpace c = false := by
  unfold trimSpace at h
  rw [List.head?_reverse] at h
  obtain ⟨t, ht⟩ :=
    List.dropWhile_suffix (l := (l.dropWhile goIsSpace).reverse) goIsSpace
  have hne : (l.dropWhile goIsSpace).reverse.dropWhile goIsSpace ≠ [] := by
    intro hnil; rw [hnil] at h; simp at h
  have hlast : ((l.dropWhile goIsSpace).reverse).getLast? = some c := by
    rw [← ht, List.getLast?_append, h]
    cases (t.getLast?) <;> rfl
  rw [List.getLast?_reverse] at hlast
  have h2 := List.head?_dropWhile_not goIsSpace l
  rw [hlast] at h2
  simpa using h2

theorem trimSpace_dropWhile (l : List Char) :
    (trimSpace l).dropWhile goIsSpace = trimSpace l := by
  cases h : trimSpace l with
  | nil => simp
  | cons c cs =>
    have hc : goIsSpace c = false := goIsSpace_of_head?_trimSpace (by rw [h]; rfl)
    simp [List.dropWhile_cons, hc]

theorem trimSpace_idem (l : List Char) : trimSpace (trimSpace l) = trimSpace l := by
  conv_lhs => rw [trimSpace]
  rw [trimSpace_dropWhile]
  have hrev : (trimSpace l).reverse = (l.dropWhile goIsSpace).reverse.dropWhile goIsSpace := by
    rw [trimSpace, List.reverse_reverse]
  rw [hrev, dropWhile_idem, ← hrev, List.reverse_reverse]

theorem trimSpace_eq_nil_of_all_space {l : List Char}
    (h : ∀ c ∈ l, goIsSpace c = true) : trimSpace l = [] := by
  have h1 : l.dropWhile goIsSpace = [] := by
    rw [List.dropWhile_eq_nil_iff]
    intro x hx
    exact h x hx
  rw [trimSpace, h1]
  simp

theorem trimSpace_eq_self_of_no_space {l : List Char}
    (h : ∀ c ∈ l, goIsSpace c = false) : trimSpace l = l := by
  have h1 : l.dropWhile goIsSpace = l := dropWhile_eq_self_of_forall h
  rw [trimSpace, h1, dropWhile_eq_self_of_forall, List.reverse_reverse]
  intro c hc
  exact h c (List.mem_reverse.mp hc)

theorem mem_dropWhile_of_mem {p : Char → Bool} {l : List Char} {c : Char}
    (hm : c ∈ l) (hc : p c = false) : c ∈ l.dropWhile p := by
  induction l with
  | nil => cases hm
  | cons d ds ih =>
    by_cases hd : p d = true
    · rw [List.dropWhile_cons_of_pos hd]
      rcases List.mem_cons.mp hm with rfl | hm2
      · rw [hd] at hc; cases hc
      · exact ih hm2
    · rw [List.dropWhile_cons_of_neg hd]
      exact hm

theorem mem_trimSpace_of_mem {l : List Char} {c : Char}
    (hm : c ∈ l) (hc : goIsSpace c = false) : c ∈ trimSpace l := by
  rw [trimSpace, List.mem_reverse]
  exact mem_dropWhile_of_mem (List.mem_reverse.mpr (mem_dropWhile_of_mem hm hc)) hc

theorem mem_of_mem_trimSpace {l : List Char} {c : Char}
    (hm : c ∈ trimSpace l) : c ∈ l := by
  rw [trimSpace, List.mem_reverse] at hm
  have h1 := (List.dropWhile_suffix (l := (l.dropWhile goIsSpace).reverse) goIsSpace).subset hm
  exact (List.dropWhile_suffix goIsSpace).subset (List.mem_reverse.mp h1)

/-! ### Lemmas about `splitCh` and `splitFirst` -/

theorem splitCh_ne_nil (sep : Char) (l : List Char) : splitCh sep l ≠ [] := by
  cases l with
  | nil => simp [splitCh]
  | cons c cs =>
    rw [splitCh]
    split
    · simp
    · split <;> simp

theorem splitFirst_eq_none_iff {sep : Char} {l : List Char} :
    splitFirst sep l = none ↔ sep ∉ l := by
  induction l with
  | nil => simp [splitFirst]
  | cons c cs ih =>
    rw [splitFirst]
    by_cases hc : c = sep
    · subst hc
      simp
    · simp only [if_neg hc]
      cases h : splitFirst sep cs with
      | none =>
        simp only [List.mem_cons]
        constructor
        · intro _ hor
          rcases hor with hor | hor
          · exact hc hor.symm
          · exact (ih.mp h) hor
        · intro _; trivial
      | some p =>
        simp only [List.mem_cons]
        constructor
        · intro hcontra; cases hcontra
        · intro hnot
          exfalso
          have : sep ∉ cs := fun hm => hnot (Or.inr hm)
          rw [ih.mpr this] at h
          cases h

theorem splitFirst_eq_some (sep : Char) {l a b : List Char}
    (h : splitFirst sep l = some (a, b)) : l = a ++ sep :: b ∧ sep ∉ a := by
  induction l generalizing a b with
  | nil => cases h
  | cons c cs ih =>
    rw [splitFirst] at h
    by_cases hc : c = sep
    · subst hc
      rw [if_pos rfl] at h
      cases h
      simp
    · rw [if_neg hc] at h
      cases h2 : splitFirst sep cs with
      | none => rw [h2] at h; cases h
      | some p =>
        rw [h2] at h
        cases p with
        | mk x y =>
          cases h
          obtain ⟨h3, h4⟩ := ih h2
          constructor
          · rw [List.cons_append, h3]
          · intro hm
            rcases List.mem_cons.mp hm with hm | hm
            · exact hc hm.symm
            · exact h4 hm

theorem splitFirst_append (sep : Char) {a : List Char} (b : List Char)
    (ha : sep ∉ a) : splitFirst sep (a ++ sep :: b) = some (a, b) := by
  induction a with
  | nil => simp [splitFirst]
  | cons c cs ih =>
    have hc : c ≠ sep := fun h => ha (h ▸ List.mem_cons_self c cs)
    rw [List.cons_append, splitFirst, if_neg hc,
      ih (fun hm => ha (List.mem_cons_of_mem c hm))]

theorem splitFirst_isSome_of_mem {sep : Char} {l : List Char} (h : sep ∈ l) :
    ∃ a b, splitFirst sep l = some (a, b) := by
  cases hs : splitFirst sep l with
  | none => exact absurd h (splitFirst_eq_none_iff.mp hs)
  | some p =>
    cases p with
    | mk x y => exact ⟨x, y, rfl⟩

theorem splitCh_of_not_mem {sep : Char} {l : List Char} (h : sep ∉ l) :
    splitCh sep l = [l] := by
  induction l with
  | nil => rfl
  | cons c cs ih =>
    have hc : c ≠ sep := fun hh => h (hh ▸ List.mem_cons_self c cs)
    rw [splitCh, if_neg hc, ih (fun hm => h (List.mem_cons_of_mem c hm))]

theorem splitCh_append_cons {sep : Char} {a : List Char} (b : List Char)
    (ha : sep ∉ a) : splitCh sep (a ++ sep :: b) = a :: splitCh sep b := by
  induction a with
  | nil => simp [splitCh]
  | cons c cs ih =>
    have hc : c ≠ sep := fun h => ha (h ▸ List.mem_cons_self c cs)
    rw [List.cons_append, splitCh, if_neg hc,
      ih (fun hm => ha (List.mem_cons_of_mem c hm))]

theorem splitCh_joinSep {sep : Char} {parts : List (List Char)}
    (hne : parts ≠ []) (h : ∀ p ∈ parts, sep ∉ p) :
    splitCh sep (joinSep sep parts) = parts := by
  induction parts with
  | nil => exact absurd rfl hne
  | cons t ts ih =>
    cases ts with
    | nil =>
      rw [joinSep]
      exact splitCh_of_not_mem (h t (List.mem_cons_self t []))
    | cons u us =>
      have hj : joinSep sep (t :: u :: us) = t ++ sep :: joinSep sep (u :: us) := rfl
      rw [hj, splitCh_append_cons _ (h t (List.mem_cons_self t _)),
        ih (List.cons_ne_nil u us) (fun p hp => h p (List.mem_cons_of_mem t hp))]

/-! ### Lemmas about digits, `atoi` and the decimal rendering -/

theorem isDigitCh_toNat {c : Char} (h : isDigitCh c = true) :
    48 ≤ c.toNat ∧ c.toNat ≤ 57 := by
  unfold isDigitCh at h
  simp only [Bool.and_eq_true, decide_eq_true_eq] at h
  exact h

theorem goIsSpace_of_isDigitCh {c : Char} (h : isDigitCh c = true) :
    goIsSpace c = false := by
  obtain ⟨h1, h2⟩ := isDigitCh_toNat h
  unfold goIsSpace
  simp only [Bool.or_eq_false_iff, Bool.and_eq_false_iff, decide_eq_false_iff_not]
  omega

theorem ne_plus_of_isDigitCh {c : Char} (h : isDigitCh c = true) : c ≠ '+' := by
  intro hc
  rw [hc] at h
  exact absurd h (by decide)

theorem ne_hyphen_of_isDigitCh {c : Char} (h : isDigitCh c = true) : c ≠ '-' := by
  intro hc
  rw [hc] at h
  exact absurd h (by decide)

theorem parseDigits_eq_none_of_mem {l : List Char} {c : Char} (hm : c ∈ l)
    (hc : isDigitCh c = false) : parseDigits l = none := by
  unfold parseDigits
  have hall : l.all isDigitCh = false := by
    rw [List.all_eq_false]
    exact ⟨c, hm, by simp [hc]⟩
  simp [hall]

theorem parseDigits_eq_none_of_hyphen {l : List Char} (hm : '-' ∈ l) :
    parseDigits l = none :=
  parseDigits_eq_none_of_mem hm (by decide)

theorem valOfDigits_append (l : List Char) (c : Char) :
    valOfDigits (l ++ [c]) = valOfDigits l * 10 + digitVal c := by
  unfold valOfDigits
  rw [List.foldl_append]
  rfl

theorem digitChar_toNat {m : Nat} (h : m < 10) : (digitChar m).toNat = 48 + m := by
  interval_cases m <;> decide

theorem isDigitCh_digitChar {m : Nat} (h : m < 10) : isDigitCh (digitChar m) = true := by
  interval_cases m <;> decide

theorem digitVal_digitChar {m : Nat} (h : m < 10) : digitVal (digitChar m) = m := by
  unfold digitVal
  rw [digitChar_toNat h]
  omega

theorem toDigitsAux_spec :
    ∀ fuel n, 0 < n → n ≤ fuel →
      toDigitsAux fuel n ≠ [] ∧ (∀ c ∈ toDigitsAux fuel n, isDigitCh c = true) ∧
        valOfDigits (toDigitsAux fuel n) = n := by
  intro fuel
  induction fuel with
  | zero => intro n h1 h2; omega
  | succ fuel ih =>
    intro n h1 h2
    have hn : n ≠ 0 := by omega
    rw [toDigitsAux, if_neg hn]
    have hmod : n % 10 < 10 := Nat.mod_lt n (by omega)
    by_cases hq : n / 10 = 0
    · have hlt : n < 10 := by omega
      rw [hq]
      have hz : toDigitsAux fuel 0 = [] := by cases fuel <;> simp [toDigitsAux]
      rw [hz]
      refine ⟨by simp, ?_, ?_⟩
      · intro c hc
        rw [List.nil_append, List.mem_singleton] at hc
        rw [hc]
        exact isDigitCh_digitChar hmod
      · rw [List.nil_append]
        show valOfDigits ([] ++ [digitChar (n % 10)]) = n
        rw [valOfDigits_append, digitVal_digitChar hmod]
        unfold valOfDigits
        simp
        omega
    · have hqle : n / 10 ≤ fuel := by omega
      obtain ⟨ih1, ih2, ih3⟩ := ih (n / 10) (by omega) hqle
      refine ⟨by simp, ?_, ?_⟩
      · intro c hc
        rcases List.mem_append.mp hc with hc | hc
        · exact ih2 c hc
        · rw [List.mem_singleton] at hc
          rw [hc]
          exact isDigitCh_digitChar hmod
      · rw [valOfDigits_append, ih3, digitVal_digitChar hmod]
        omega

theorem natToDigits_spec (n : Nat) :
    natToDigits n ≠ [] ∧ (∀ c ∈ natToDigits n, isDigitCh c = true) ∧
      valOfDigits (natToDigits n) = n := by
  by_cases hn : n = 0
  · subst hn
    have h0 : natToDigits 0 = ['0'] := rfl
    rw [h0]
    refine ⟨by simp, ?_, by decide⟩
    intro c hc
    rw [List.mem_singleton] at hc
    rw [hc]
    decide
  · rw [natToDigits, if_neg hn]
    exact toDigitsAux_spec n n (by omega) le_rfl

theorem parseDigits_natToDigits (n : Nat) : parseDigits (natToDigits n) = some n := by
  obtain ⟨h1, h2, h3⟩ := natToDigits_spec n
  unfold parseDigits
  have he : (natToDigits n).isEmpty = false := by
    rw [List.isEmpty_eq_false_iff_exists_mem]
    cases hl : natToDigits n with
    | nil => exact absurd hl h1
    | cons c cs => exact ⟨c, List.mem_cons_self c cs⟩
  have ha : (natToDigits n).all isDigitCh = true := List.all_eq_true.mpr h2
  rw [he, ha, h3]
  rfl

theorem atoi_natToDigits {n : Nat} (hn : n ≤ 65535) :
    atoi (natToDigits n) = .ok (n : Int) := by
  obtain ⟨h1, h2, h3⟩ := natToDigits_spec n
  cases hl : natToDigits n with
  | nil => exact absurd hl h1
  | cons c cs =>
    have hcd : isDigitCh c = true := h2 c (by rw [hl]; exact List.mem_cons_self c cs)
    have hpd : parseDigits (c :: cs) = some n := by rw [← hl]; exact parseDigits_natToDigits n
    rw [atoi, if_neg (ne_plus_of_isDigitCh hcd), if_neg (ne_hyphen_of_isDigitCh hcd)]
    simp only [hpd]
    rw [if_pos (show n ≤ 2 ^ 63 - 1 by omega)]

theorem trimSpace_natToDigits (n : Nat) : trimSpace (natToDigits n) = natToDigits n :=
  trimSpace_eq_self_of_no_space fun c hc =>
    goIsSpace_of_isDigitCh ((natToDigits_spec n).2.1 c hc)

theorem not_mem_natToDigits_of_not_digit {n : Nat} {c : Char}
    (hc : isDigitCh c = false) : c ∉ natToDigits n := by
  intro hm
  rw [(natToDigits_spec n).2.1 c hm] at hc
  cases hc

theorem parseSinglePort_natToDigits {n : Nat} (h1 : 1 ≤ n) (h2 : n ≤ 65535) :
    parseSinglePort (natToDigits n) = .ok (n : Int) := by
  unfold parseSinglePort
  simp only [trimSpace_natToDigits n]
  rw [if_neg ((natToDigits_spec n).1), atoi_natToDigits h2]
  have hr : (1 : Int) ≤ (n : Int) ∧ (n : Int) ≤ 65535 :=
    ⟨by exact_mod_cast h1, by exact_mod_cast h2⟩
  simp [hr]

/-! ### Characterizations of the parsing functions and the token loop -/
theorem parseSinglePort_ok_iff {tok : List Char} {n : Int} :
    parseSinglePort tok = .ok n ↔
      trimSpace tok ≠ [] ∧ atoi (trimSpace tok) = .ok n ∧ 1 ≤ n ∧ n ≤ 65535 := by
  unfold parseSinglePort
  split
  · rename_i hnil
    simp [hnil]
  · rename_i hne
    cases ha : atoi (trimSpace tok) with
    | error e => simp [ha]
    | ok m =>
      simp only [ha, Except.ok.injEq, ne_eq, hne, not_false_iff, true_and]
      split
      · rename_i hr
        simp only [Except.ok.injEq]
        constructor
        · rintro rfl
          exact ⟨rfl, hr.1, hr.2⟩
        · rintro ⟨rfl, -, -⟩
          rfl
      · rename_i hr
        constructor
        · intro h; cases h
        · rintro ⟨rfl, h1, h2⟩
          exact absurd ⟨h1, h2⟩ hr

theorem parsePortRange_ok_iff {tok : List Char} {a b : Int} :
    parsePortRange tok = .ok (a, b) ↔
      ∃ l r, trimSpace tok ≠ [] ∧ splitFirst '-' (trimSpace tok) = some (l, r) ∧
        trimSpace l ≠ [] ∧ trimSpace r ≠ [] ∧
        parseSinglePort (trimSpace l) = .ok a ∧ parseSinglePort (trimSpace r) = .ok b ∧
        a ≤ b := by
  unfold parsePortRange
  split
  · rename_i hnil
    constructor
    · intro h; cases h
    · rintro ⟨l, r, hne, -⟩; exact absurd hnil hne
  · rename_i hne
    cases hs : splitFirst '-' (trimSpace tok) with
    | none =>
      simp only [hs]
      constructor
      · intro h; cases h
      · rintro ⟨l, r, -, heq, -⟩; cases heq
    | some lr =>
      simp only [hs, Option.some.injEq]
      constructor
      · intro h
        split at h
        · cases h
        · rename_i hbb
          push_neg at hbb
          cases hl : parseSinglePort (trimSpace lr.1) with
          | error e => simp only [hl] at h; cases h
          | ok x =>
            simp only [hl] at h
            cases hr2 : parseSinglePort (trimSpace lr.2) with
            | error e => simp only [hr2] at h; cases h
            | ok y =>
              simp only [hr2] at h
              split at h
              · cases h
              · rename_i hgt
                injection h with h
                rw [Prod.mk.injEq] at h
                obtain ⟨rfl, rfl⟩ := h
                exact ⟨lr.1, lr.2, hne, rfl, hbb.1, hbb.2, hl, hr2, by omega⟩
      · rintro ⟨l, r, -, heq, hl, hr, hpl, hpr, hab⟩
        subst heq
        rw [if_neg (by push_neg; exact ⟨hl, hr⟩)]
        simp only [hpl, hpr, if_neg (by omega : ¬a > b)]

theorem tokenStep_inl_iff {tok : List Char} {n : Int} :
    tokenStep tok = .ok (.inl n) ↔
      trimSpace tok ≠ [] ∧ '-' ∉ trimSpace tok ∧
        parseSinglePort (trimSpace tok) = .ok n := by
  unfold tokenStep
  split
  · rename_i hnil
    constructor
    · intro h; cases h
    · rintro ⟨hne, -⟩; exact absurd hnil hne
  · rename_i hne
    split
    · rename_i hmem
      constructor
      · intro h
        cases hp : parsePortRange (trimSpace tok) with
        | error e => simp only [hp] at h; cases h
        | ok ab => simp only [hp] at h; cases h
      · rintro ⟨-, hnm, -⟩; exact absurd hmem hnm
    · rename_i hmem
      constructor
      · intro h
        cases hp : parseSinglePort (trimSpace tok) with
        | error e => simp only [hp] at h; cases h
        | ok m =>
          simp only [hp] at h
          injection h with h
          injection h with h
          subst h
          exact ⟨hne, hmem, rfl⟩
      · rintro ⟨-, -, hp⟩
        simp only [hp]

theorem tokenStep_inr_iff {tok : List Char} {ab : Int × Int} :
    tokenStep tok = .ok (.inr ab) ↔
      trimSpace tok ≠ [] ∧ '-' ∈ trimSpace tok ∧
        parsePortRange (trimSpace tok) = .ok ab := by
  unfold tokenStep
  split
  · rename_i hnil
    constructor
    · intro h; cases h
    · rintro ⟨hne, -⟩; exact absurd hnil hne
  · rename_i hne
    split
    · rename_i hmem
      constructor
      · intro h
        cases hp : parsePortRange (trimSpace tok) with
        | error e => simp only [hp] at h; cases h
        | ok xy =>
          simp only [hp] at h
          injection h with h
          injection h with h
          subst h
          exact ⟨hne, hmem, rfl⟩
      · rintro ⟨-, -, hp⟩
        simp only [hp]
    · rename_i hmem
      constructor
      · intro h
        cases hp : parseSinglePort (trimSpace tok) with
        | error e => simp only [hp] at h; cases h
        | ok m => simp only [hp] at h; cases h
      · rintro ⟨-, hm, -⟩; exact absurd hm hmem

theorem collectTokens_ok_iff {ts : List (List Char)} {sr : List Int × List (Int × Int)} :
    collectTokens ts = .ok sr ↔
      (∀ t ∈ ts, ∃ v, tokenStep t = .ok v) ∧ sr = (singlesOf ts, rangesOf ts) := by
  induction ts generalizing sr with
  | nil =>
    simp only [collectTokens, singlesOf, rangesOf, List.filterMap_nil]
    constructor
    · intro h
      injection h with h
      refine ⟨?_, h.symm⟩
      intro t ht
      exact absurd ht (List.not_mem_nil t)
    · rintro ⟨-, rfl⟩
      rfl
  | cons tok rest ih =>
    constructor
    · intro h
      rw [collectTokens] at h
      cases hv : tokenStep tok with
      | error e => simp only [hv] at h; cases h
      | ok v =>
        simp only [hv] at h
        cases hc : collectTokens rest with
        | error e => simp only [hc] at h; cases v <;> cases h
        | ok sr2 =>
          simp only [hc] at h
          obtain ⟨hall, hsr2⟩ := ih.mp hc
          have hmem : ∀ t ∈ tok :: rest, ∃ w, tokenStep t = .ok w := by
            intro t ht
            rcases List.mem_cons.mp ht with rfl | ht2
            · exact ⟨v, hv⟩
            · exact hall t ht2
          cases v with
          | inl n =>
            injection h with h
            subst h
            refine ⟨hmem, ?_⟩
            rw [hsr2]
            simp only [singlesOf, rangesOf, List.filterMap_cons, hv]
          | inr ab =>
            injection h with h
            subst h
            refine ⟨hmem, ?_⟩
            rw [hsr2]
            simp only [singlesOf, rangesOf, List.filterMap_cons, hv]
    · rintro ⟨hall, rfl⟩
      obtain ⟨v, hv⟩ := hall tok (List.mem_cons_self tok rest)
      rw [collectTokens, hv,
        ih.mpr ⟨fun t ht => hall t (List.mem_cons_of_mem tok ht), rfl⟩]
      cases v with
      | inl n => simp only [singlesOf, rangesOf, List.filterMap_cons, hv]
      | inr ab => simp only [singlesOf, rangesOf, List.filterMap_cons, hv]


theorem tokenStep_ok_cases {tok : List Char} {v : Int ⊕ (Int × Int)}
    (h : tokenStep tok = .ok v) :
    trimSpace tok ≠ [] ∧
      ((∃ n, v = .inl n ∧ '-' ∉ trimSpace tok ∧ parseSinglePort (trimSpace tok) = .ok n) ∨
       (∃ ab, v = .inr ab ∧ '-' ∈ trimSpace tok ∧ parsePortRange (trimSpace tok) = .ok ab)) := by
  cases v with
  | inl n =>
    obtain ⟨h1, h2, h3⟩ := tokenStep_inl_iff.mp h
    exact ⟨h1, Or.inl ⟨n, rfl, h2, h3⟩⟩
  | inr ab =>
    obtain ⟨h1, h2, h3⟩ := tokenStep_inr_iff.mp h
    exact ⟨h1, Or.inr ⟨ab, rfl, h2, h3⟩⟩

theorem collectTokens_isErr_of_mem {ts : List (List Char)} {t : List Char}
    (hm : t ∈ ts) (he : isErr (tokenStep t) = true) :
    isErr (collectTokens ts) = true := by
  cases hc : collectTokens ts with
  | error e => rfl
  | ok sr =>
    obtain ⟨hall, -⟩ := collectTokens_ok_iff.mp hc
    obtain ⟨v, hv⟩ := hall t hm
    rw [hv] at he
    cases he


/-! ### `sortedDedup`, `rangeList`, `expandPortSpec` -/

theorem sortedDedup_sorted_le (l : List Int) :
    List.Sorted (· ≤ ·) (sortedDedup l) :=
  List.sorted_insertionSort _ _

theorem sortedDedup_perm (l : List Int) : sortedDedup l ~ l.dedup :=
  List.perm_insertionSort _ _

theorem sortedDedup_nodup (l : List Int) : (sortedDedup l).Nodup :=
  ((sortedDedup_perm l).symm).nodup (List.nodup_dedup l)

theorem sortedDedup_sorted_lt (l : List Int) :
    List.Sorted (· < ·) (sortedDedup l) :=
  (sortedDedup_sorted_le l).lt_of_le (sortedDedup_nodup l)

theorem mem_sortedDedup {l : List Int} {a : Int} : a ∈ sortedDedup l ↔ a ∈ l := by
  rw [(sortedDedup_perm l).mem_iff, List.mem_dedup]

theorem sortedDedup_congr_perm {l l' : List Int} (h : l ~ l') :
    sortedDedup l = sortedDedup l' :=
  List.eq_of_perm_of_sorted
    ((sortedDedup_perm l).trans ((h.dedup).trans (sortedDedup_perm l').symm))
    (sortedDedup_sorted_le l) (sortedDedup_sorted_le l')

theorem sortedDedup_eq_self {l : List Int} (h : List.Sorted (· < ·) l) :
    sortedDedup l = l := by
  unfold sortedDedup
  rw [List.dedup_eq_self.mpr h.nodup]
  exact List.Sorted.insertionSort_eq (h.imp le_of_lt)

theorem mem_rangeList {a b p : Int} : p ∈ rangeList a b ↔ a ≤ p ∧ p ≤ b := by
  unfold rangeList
  simp only [List.mem_map, List.mem_range]
  constructor
  · rintro ⟨i, hi, rfl⟩
    omega
  · rintro ⟨h1, h2⟩
    exact ⟨(p - a).toNat, by omega, by omega⟩

theorem rangeList_sorted_lt (a b : Int) : List.Sorted (· < ·) (rangeList a b) := by
  unfold rangeList
  refine List.Pairwise.map _ ?_ (List.pairwise_lt_range _)
  intro i j hij
  omega

theorem rangeList_self (a : Int) : rangeList a a = [a] := by
  have h : a + 1 - a = (1 : Int) := by omega
  rw [rangeList, h]
  rw [show List.range (Int.toNat 1) = [0] from rfl]
  simp

theorem rangeList_ne_nil {a b : Int} (h : a ≤ b) : rangeList a b ≠ [] := by
  have hm : a ∈ rangeList a b := mem_rangeList.mpr ⟨le_refl a, h⟩
  intro hc
  rw [hc] at hm
  cases hm

theorem expandPortSpec_ok_iff {spec : List Char} {S : List Int} :
    expandPortSpec spec = .ok S ↔
      trimSpace spec ≠ [] ∧
        (∀ t ∈ splitCh ',' (trimSpace spec), ∃ v, tokenStep t = .ok v) ∧
        S = sortedDedup (singlesOf (splitCh ',' (trimSpace spec)) ++
          (rangesOf (splitCh ',' (trimSpace spec))).flatMap fun ab => rangeList ab.1 ab.2) := by
  unfold expandPortSpec
  split
  · rename_i hnil
    constructor
    · intro h; cases h
    · rintro ⟨hne, -⟩; exact absurd hnil hne
  · rename_i hne
    cases hc : collectTokens (splitCh ',' (trimSpace spec)) with
    | error e =>
      simp only [hc]
      constructor
      · intro h; cases h
      · rintro ⟨-, hall, -⟩
        have h2 := collectTokens_ok_iff.mpr ⟨hall, rfl⟩
        rw [hc] at h2
        cases h2
    | ok sr =>
      simp only [hc]
      obtain ⟨hall, hsr⟩ := collectTokens_ok_iff.mp hc
      subst hsr
      constructor
      · intro h
        injection h with h
        exact ⟨hne, hall, h.symm⟩
      · rintro ⟨-, -, rfl⟩
        rfl

theorem expandPortSpec_isErr_of_mem {spec t : List Char}
    (hm : t ∈ splitCh ',' (trimSpace spec))
    (he : isErr (tokenStep t) = true) : isErr (expandPortSpec spec) = true := by
  unfold expandPortSpec
  split
  · rfl
  · have h2 := collectTokens_isErr_of_mem hm he
    cases hc : collectTokens (splitCh ',' (trimSpace spec)) with
    | error e => simp only [hc]; rfl
    | ok sr => rw [hc] at h2; cases h2

theorem atoi_hyphen_cases {l : List Char} (hm : '-' ∈ l) :
    isErr (atoi l) = true ∨ ∃ v : Nat, atoi l = .ok (-(v : Int)) := by
  cases l with
  | nil => cases hm
  | cons c cs =>
    by_cases hcp : c = '+'
    · subst hcp
      left
      have hmem : '-' ∈ cs := by
        rcases List.mem_cons.mp hm with h | h
        · exact absurd h (by decide)
        · exact h
      rw [atoi, if_pos rfl]
      simp only [parseDigits_eq_none_of_hyphen hmem]
      rfl
    · by_cases hcm : c = '-'
      · subst hcm
        rw [atoi, if_neg (by decide : ¬('-' : Char) = '+'), if_pos rfl]
        cases hd : parseDigits cs with
        | none => left; rfl
        | some v =>
          simp only [hd]
          by_cases hv : v ≤ 2 ^ 63
          · right
            exact ⟨v, by rw [if_pos hv]⟩
          · left
            rw [if_neg hv]
            rfl
      · left
        rw [atoi, if_neg hcp, if_neg hcm]
        simp only [parseDigits_eq_none_of_hyphen hm]
        rfl

theorem parseSinglePort_isErr_of_hyphen {tok : List Char}
    (hm : '-' ∈ trimSpace tok) : isErr (parseSinglePort tok) = true := by
  unfold parseSinglePort
  split
  · rfl
  · rcases atoi_hyphen_cases hm with he | ⟨v, hv⟩
    · cases ha : atoi (trimSpace tok) with
      | error e => simp only [ha]; rfl
      | ok m => rw [ha] at he; cases he
    · simp only [hv]
      rw [if_neg ?_]
      · rfl
      · rintro ⟨h1, -⟩
        omega

theorem parsePortRange_isErr_of_two_hyphens {t : List Char}
    (hts : trimSpace t = t) (hcount : 2 ≤ t.count '-') :
    isErr (parsePortRange t) = true := by
  unfold parsePortRange
  rw [hts]
  have hmem : '-' ∈ t := List.count_pos_iff.mp (by omega)
  have hne : t ≠ [] := by
    intro hc
    rw [hc] at hmem
    cases hmem
  rw [if_neg hne]
  obtain ⟨l, r, hs⟩ := splitFirst_isSome_of_mem hmem
  simp only [hs]
  obtain ⟨heq, hnl⟩ := splitFirst_eq_some '-' hs
  have hcr : 1 ≤ r.count '-' := by
    rw [heq, List.count_append, List.count_cons_self,
      List.count_eq_zero.mpr hnl] at hcount
    omega
  have hmr : '-' ∈ r := List.count_pos_iff.mp (by omega)
  have hmtr : '-' ∈ trimSpace r := mem_trimSpace_of_mem hmr (by decide)
  by_cases hb : trimSpace l = [] ∨ trimSpace r = []
  · rw [if_pos hb]; rfl
  · rw [if_neg hb]
    cases hpl : parseSinglePort (trimSpace l) with
    | error e => simp only [hpl]; rfl
    | ok a =>
      simp only [hpl]
      have herr : isErr (parseSinglePort (trimSpace r)) = true :=
        parseSinglePort_isErr_of_hyphen (by rw [trimSpace_idem]; exact hmtr)
      cases hpr : parseSinglePort (trimSpace r) with
      | error e => simp only [hpr]; rfl
      | ok b => rw [hpr] at herr; cases herr


theorem expandPortSpec_ok_facts {spec : List Char} {S : List Int}
    (h : expandPortSpec spec = .ok S) :
    List.Sorted (· < ·) S ∧ S.Nodup ∧ ∀ p ∈ S, 1 ≤ p ∧ p ≤ 65535 := by
  obtain ⟨hne, hall, hS⟩ := expandPortSpec_ok_iff.mp h
  subst hS
  refine ⟨sortedDedup_sorted_lt _, sortedDedup_nodup _, ?_⟩
  intro p hp
  rw [mem_sortedDedup] at hp
  rcases List.mem_append.mp hp with hp | hp
  · rw [singlesOf, List.mem_filterMap] at hp
    obtain ⟨t, ht, hf⟩ := hp
    cases hv : tokenStep t with
    | error e => simp only [hv] at hf; cases hf
    | ok v =>
      simp only [hv] at hf
      cases v with
      | inl n =>
        injection hf with hf
        subst hf
        have h2 := parseSinglePort_ok_iff.mp (tokenStep_inl_iff.mp hv).2.2
        exact ⟨h2.2.2.1, h2.2.2.2⟩
      | inr ab => cases hf
  · rw [List.mem_flatMap] at hp
    obtain ⟨ab, hab, hpr⟩ := hp
    rw [rangesOf, List.mem_filterMap] at hab
    obtain ⟨t, ht, hf⟩ := hab
    cases hv : tokenStep t with
    | error e => simp only [hv] at hf; cases hf
    | ok v =>
      simp only [hv] at hf
      cases v with
      | inl n => cases hf
      | inr xy =>
        injection hf with hf
        have h2 := (tokenStep_inr_iff.mp hv).2.2
        rw [hf] at h2
        obtain ⟨l, r, -, -, -, -, hpl, hpr2, hab2⟩ :=
          (parsePortRange_ok_iff (a := ab.1) (b := ab.2)).mp h2
        have hlb := parseSinglePort_ok_iff.mp hpl
        have hrb := parseSinglePort_ok_iff.mp hpr2
        have hm := mem_rangeList.mp hpr
        constructor
        · have := hlb.2.2.1
          omega
        · have := hrb.2.2.2
          omega

theorem expandPortSpec_ok_ne_nil {spec : List Char} {S : List Int}
    (h : expandPortSpec spec = .ok S) : S ≠ [] := by
  obtain ⟨hne, hall, hS⟩ := expandPortSpec_ok_iff.mp h
  cases hts : splitCh ',' (trimSpace spec) with
  | nil => exact absurd hts (splitCh_ne_nil ',' _)
  | cons t0 rest =>
    have ht0 : t0 ∈ splitCh ',' (trimSpace spec) := by
      rw [hts]
      exact List.mem_cons_self _ _
    obtain ⟨v, hv⟩ := hall t0 ht0
    have hex : ∃ p, p ∈ S := by
      subst hS
      cases v with
      | inl n =>
        refine ⟨n, ?_⟩
        rw [mem_sortedDedup]
        refine List.mem_append.mpr (Or.inl ?_)
        rw [singlesOf, List.mem_filterMap]
        exact ⟨t0, ht0, by simp only [hv]⟩
      | inr ab =>
        obtain ⟨l, r, -, -, -, -, -, -, hab⟩ :=
          (parsePortRange_ok_iff (a := ab.1) (b := ab.2)).mp (tokenStep_inr_iff.mp hv).2.2
        refine ⟨ab.1, ?_⟩
        rw [mem_sortedDedup]
        refine List.mem_append.mpr (Or.inr ?_)
        rw [List.mem_flatMap]
        refine ⟨ab, ?_, mem_rangeList.mpr ⟨le_refl _, hab⟩⟩
        rw [rangesOf, List.mem_filterMap]
        exact ⟨t0, ht0, by simp only [hv]⟩
    obtain ⟨p, hp⟩ := hex
    intro hnil
    rw [hnil] at hp
    cases hp

/-- C4: `expandPortSpec` is order-independent: for every well-formed spec (one
on which expansion succeeds), any spec whose comma-separated token list is a
permutation of the original spec's token list expands to the same output
sequence. -/
theorem c4_expand_order_independent (spec spec' : List Char) (S : List Int)
    (hperm : List.Perm (splitCh ',' (trimSpace spec')) (splitCh ',' (trimSpace spec)))
    (h : expandPortSpec spec = .ok S) :
    expandPortSpec spec' = .ok S := by
  obtain ⟨hne, hall, hS⟩ := expandPortSpec_ok_iff.mp h
  have hne' : trimSpace spec' ≠ [] := by
    intro hnil
    have htok : splitCh ',' (trimSpace spec') = [[]] := by rw [hnil]; rfl
    rw [htok] at hperm
    have hmem : ([] : List Char) ∈ splitCh ',' (trimSpace spec) :=
      hperm.subset (List.mem_singleton.mpr rfl)
    obtain ⟨v, hv⟩ := hall [] hmem
    have hts : tokenStep ([] : List Char) = .error "empty token" := rfl
    rw [hts] at hv
    cases hv
  refine expandPortSpec_ok_iff.mpr ⟨hne', fun t ht => hall t (hperm.subset ht), ?_⟩
  rw [hS]
  apply sortedDedup_congr_perm
  refine List.Perm.append ?_ ?_
  · exact (hperm.symm.filterMap _)
  · exact (hperm.symm.filterMap _).flatMap_right _

/-- Witness for C4 at a concrete permutation: "8000-8002,443,80" expands to the
same list as "80,443,8000-8002". -/
theorem c4_expand_order_independent_witness :
    expandPortSpec ("8000-8002,443,80".toList) = .ok [80, 443, 8000, 8001, 8002] :=
  c4_expand_order_independent ("80,443,8000-8002".toList) ("8000-8002,443,80".toList) _ (by decide) (by decide)

/-- C6: `expandPortSpec` fails, producing no result list, whenever (a) the spec
is empty or all whitespace, (b) some comma-separated token is empty after
trimming (e.g. a trailing comma), or (c) either side of a range hyphen is
empty after trimming. -/
theorem c6_expand_malformed_input_errors (spec : List Char) :
    ((∀ c ∈ spec, goIsSpace c = true) → isErr (expandPortSpec spec) = true) ∧
    ((∃ t ∈ splitCh ',' (trimSpace spec), trimSpace t = []) →
      isErr (expandPortSpec spec) = true) ∧
    (∀ t ∈ splitCh ',' (trimSpace spec), ∀ l r,
      splitFirst '-' (trimSpace t) = some (l, r) →
      trimSpace l = [] ∨ trimSpace r = [] → isErr (expandPortSpec spec) = true) := by
  refine ⟨?_, ?_, ?_⟩
  · intro hsp
    unfold expandPortSpec
    rw [if_pos (trimSpace_eq_nil_of_all_space hsp)]
    rfl
  · rintro ⟨t, ht, htnil⟩
    apply expandPortSpec_isErr_of_mem ht
    unfold tokenStep
    rw [if_pos htnil]
    rfl
  · intro t ht l r hs hlr
    apply expandPortSpec_isErr_of_mem ht
    have hne : trimSpace t ≠ [] := by
      intro hnil
      rw [hnil] at hs
      cases hs
    have hmem : '-' ∈ trimSpace t := by
      obtain ⟨heq, -⟩ := splitFirst_eq_some '-' hs
      rw [heq]
      exact List.mem_append.mpr (Or.inr (List.mem_cons_self _ _))
    unfold tokenStep
    rw [if_neg hne, if_pos hmem]
    have herr : isErr (parsePortRange (trimSpace t)) = true := by
      unfold parsePortRange
      simp only [trimSpace_idem, if_neg hne, hs]
      rw [if_pos hlr]
      rfl
    cases hp : parsePortRange (trimSpace t) with
    | error e => simp only [hp]; rfl
    | ok ab => rw [hp] at herr; cases herr

/-- Witness for C6 at concrete inputs: " " (all whitespace), "1,,2" (empty
token) and "5-" (empty right range bound) all make `expandPortSpec` fail. -/
theorem c6_expand_malformed_input_errors_witness :
    isErr (expandPortSpec (" ".toList)) = true ∧
      isErr (expandPortSpec ("1,,2".toList)) = true ∧
      isErr (expandPortSpec ("5-".toList)) = true :=
  ⟨(c6_expand_malformed_input_errors (" ".toList)).1 (by decide),
   (c6_expand_malformed_input_errors ("1,,2".toList)).2.1 (by decide),
   (c6_expand_malformed_input_errors ("5-".toList)).2.2 ("5-".toList) (by decide) ['5'] [] (by decide) (by decide)⟩

/-- C7: every numeric value of every token (the single port, or both range
bounds) must parse under `atoi` (base-10, optional sign, no overflow) and lie
in [1, 65535]; if any token violates this — non-numeric text or an
out-of-range value alike — the whole `expandPortSpec` call fails and no
result list is produced. -/
theorem c7_expand_numeric_violation_errors (spec : List Char)
    (hbad : ∃ t ∈ splitCh ',' (trimSpace spec), tokenNumbersOk t = false) :
    isErr (expandPortSpec spec) = true := by
  obtain ⟨t, ht, hb⟩ := hbad
  apply expandPortSpec_isErr_of_mem ht
  cases hv : tokenStep t with
  | error e => rfl
  | ok v =>
    exfalso
    obtain ⟨hne, hcases⟩ := tokenStep_ok_cases hv
    rcases hcases with ⟨n, -, hnm, hp⟩ | ⟨ab, -, hm, hp⟩
    · obtain ⟨-, ha, h1, h2⟩ := parseSinglePort_ok_iff.mp hp
      rw [trimSpace_idem] at ha
      unfold tokenNumbersOk at hb
      rw [if_neg hnm] at hb
      simp only [ha] at hb
      rw [decide_eq_true ⟨h1, h2⟩] at hb
      cases hb
    · obtain ⟨l, r, -, hs, -, -, hpl, hpr, -⟩ :=
        (parsePortRange_ok_iff (a := ab.1) (b := ab.2)).mp hp
      rw [trimSpace_idem] at hs
      obtain ⟨-, hal, hl1, hl2⟩ := parseSinglePort_ok_iff.mp hpl
      obtain ⟨-, har, hr1, hr2⟩ := parseSinglePort_ok_iff.mp hpr
      rw [trimSpace_idem] at hal har
      unfold tokenNumbersOk at hb
      rw [if_pos hm] at hb
      simp only [hs, hal, har] at hb
      rw [decide_eq_true ⟨hl1, hl2⟩, decide_eq_true ⟨hr1, hr2⟩] at hb
      cases hb

/-- Witness for C7 at a concrete input: in "80,99999" the token "99999" is out
of range, so the whole expansion fails. -/
theorem c7_expand_numeric_violation_errors_witness : isErr (expandPortSpec ("80,99999".toList)) = true :=
  c7_expand_numeric_violation_errors ("80,99999".toList) (by decide)

/-- C10: every spec containing a token with two or more hyphens (after
trimming) makes `expandPortSpec` fail: the token is classified as a range and
split at the first hyphen only, and the remaining right-hand side, which still
contains a hyphen, never yields a valid port. -/
theorem c10_multi_hyphen_token_errors (spec : List Char)
    (h : ∃ t ∈ splitCh ',' (trimSpace spec), 2 ≤ (trimSpace t).count '-') :
    isErr (expandPortSpec spec) = true := by
  obtain ⟨t, ht, hcount⟩ := h
  apply expandPortSpec_isErr_of_mem ht
  have hmem : '-' ∈ trimSpace t := List.count_pos_iff.mp (by omega)
  have hne : trimSpace t ≠ [] := by
    intro hnil
    rw [hnil] at hmem
    cases hmem
  unfold tokenStep
  rw [if_neg hne, if_pos hmem]
  have herr : isErr (parsePortRange (trimSpace t)) = true :=
    parsePortRange_isErr_of_two_hyphens (trimSpace_idem t) hcount
  cases hp : parsePortRange (trimSpace t) with
  | error e => simp only [hp]; rfl
  | ok ab => rw [hp] at herr; cases herr

/-- Witness for C10 at the concrete input "80-90-100". -/
theorem c10_multi_hyphen_token_errors_witness : isErr (expandPortSpec ("80-90-100".toList)) = true :=
  c10_multi_hyphen_token_errors ("80-90-100".toList) (by decide)


theorem mem_joinSep {sep : Char} {parts : List (List Char)} {c : Char}
    (h : c ∈ joinSep sep parts) : c = sep ∨ ∃ p ∈ parts, c ∈ p := by
  induction parts with
  | nil => cases h
  | cons t ts ih =>
    cases ts with
    | nil => exact Or.inr ⟨t, List.mem_cons_self _ _, h⟩
    | cons u us =>
      have hj : joinSep sep (t :: u :: us) = t ++ sep :: joinSep sep (u :: us) := rfl
      rw [hj] at h
      rcases List.mem_append.mp h with h | h
      · exact Or.inr ⟨t, List.mem_cons_self _ _, h⟩
      · rcases List.mem_cons.mp h with h | h
        · exact Or.inl h
        · rcases ih h with h | ⟨p, hp, hcp⟩
          · exact Or.inl h
          · exact Or.inr ⟨p, List.mem_cons_of_mem _ hp, hcp⟩

theorem joinSep_ne_nil {sep : Char} {parts : List (List Char)}
    (hne : parts ≠ []) (hall : ∀ p ∈ parts, p ≠ []) : joinSep sep parts ≠ [] := by
  cases parts with
  | nil => exact absurd rfl hne
  | cons t ts =>
    cases ts with
    | nil => exact hall t (List.mem_cons_self _ _)
    | cons u us =>
      have hj : joinSep sep (t :: u :: us) = t ++ sep :: joinSep sep (u :: us) := rfl
      rw [hj]
      intro hc
      rcases List.append_eq_nil.mp hc with ⟨-, h2⟩
      cases h2

theorem trimSpace_intToDigits (p : Int) : trimSpace (intToDigits p) = intToDigits p :=
  trimSpace_natToDigits _

theorem parseSinglePort_intToDigits {p : Int} (h1 : 1 ≤ p) (h2 : p ≤ 65535) :
    parseSinglePort (intToDigits p) = .ok p := by
  unfold intToDigits
  rw [parseSinglePort_natToDigits (by omega) (by omega)]
  congr 1
  omega

theorem tokenStep_intToDigits {p : Int} (h1 : 1 ≤ p) (h2 : p ≤ 65535) :
    tokenStep (intToDigits p) = .ok (.inl p) := by
  refine tokenStep_inl_iff.mpr ⟨?_, ?_, ?_⟩
  · rw [trimSpace_intToDigits]
    exact (natToDigits_spec _).1
  · rw [trimSpace_intToDigits]
    exact not_mem_natToDigits_of_not_digit (by decide)
  · rw [trimSpace_intToDigits]
    exact parseSinglePort_intToDigits h1 h2

theorem singlesOf_render {S : List Int} (hb : ∀ p ∈ S, 1 ≤ p ∧ p ≤ 65535) :
    singlesOf (S.map intToDigits) = S ∧ rangesOf (S.map intToDigits) = [] := by
  induction S with
  | nil => exact ⟨rfl, rfl⟩
  | cons p ps ih =>
    have hp := hb p (List.mem_cons_self _ _)
    have hstep := tokenStep_intToDigits hp.1 hp.2
    obtain ⟨ih1, ih2⟩ := ih fun q hq => hb q (List.mem_cons_of_mem _ hq)
    constructor
    · rw [List.map_cons, singlesOf, List.filterMap_cons]
      simp only [hstep]
      exact congrArg (p :: ·) ih1
    · rw [List.map_cons, rangesOf, List.filterMap_cons]
      simp only [hstep]
      exact ih2

theorem renderPorts_no_space {S : List Int} {c : Char} (hc : c ∈ renderPorts S) :
    goIsSpace c = false := by
  unfold renderPorts at hc
  rcases mem_joinSep hc with rfl | ⟨part, hpart, hcp⟩
  · decide
  · rw [List.mem_map] at hpart
    obtain ⟨p, -, rfl⟩ := hpart
    exact goIsSpace_of_isDigitCh ((natToDigits_spec _).2.1 c hcp)

/-- C5: expansion is idempotent through stringification: if `expandPortSpec`
succeeds with result `S`, then expanding the canonical comma-joined decimal
rendering of `S` succeeds and returns `S` again. -/
theorem c5_expand_idempotent_on_render (spec : List Char) (S : List Int)
    (h : expandPortSpec spec = .ok S) :
    expandPortSpec (renderPorts S) = .ok S := by
  obtain ⟨hsorted, hnodup, hb⟩ := expandPortSpec_ok_facts h
  have hSne := expandPortSpec_ok_ne_nil h
  have hparts_ne : S.map intToDigits ≠ [] := by
    intro hc
    exact hSne (List.map_eq_nil_iff.mp hc)
  have hpne : ∀ part ∈ S.map intToDigits, part ≠ [] := by
    intro part hpart
    rw [List.mem_map] at hpart
    obtain ⟨p, -, rfl⟩ := hpart
    exact (natToDigits_spec _).1
  have hnc : ∀ part ∈ S.map intToDigits, ',' ∉ part := by
    intro part hpart
    rw [List.mem_map] at hpart
    obtain ⟨p, -, rfl⟩ := hpart
    exact not_mem_natToDigits_of_not_digit (by decide)
  have htrim : trimSpace (renderPorts S) = renderPorts S :=
    trimSpace_eq_self_of_no_space fun c hc => renderPorts_no_space hc
  have hsplit : splitCh ',' (renderPorts S) = S.map intToDigits := by
    unfold renderPorts
    exact splitCh_joinSep hparts_ne hnc
  obtain ⟨hsingle, hrange⟩ := singlesOf_render hb
  refine expandPortSpec_ok_iff.mpr ⟨?_, ?_, ?_⟩
  · rw [htrim]
    unfold renderPorts
    exact joinSep_ne_nil hparts_ne hpne
  · rw [htrim, hsplit]
    intro t ht
    rw [List.mem_map] at ht
    obtain ⟨p, hp, rfl⟩ := ht
    exact ⟨_, tokenStep_intToDigits (hb p hp).1 (hb p hp).2⟩
  · rw [htrim, hsplit, hsingle, hrange]
    simp only [List.flatMap_nil, List.append_nil]
    exact (sortedDedup_eq_self hsorted).symm

/-- Witness for C5: re-expanding the rendering of the expansion of
"80,443,8000-8002" returns the same list. -/
theorem c5_expand_idempotent_on_render_witness :
    expandPortSpec (renderPorts [80, 443, 8000, 8001, 8002]) =
      .ok [80, 443, 8000, 8001, 8002] :=
  c5_expand_idempotent_on_render ("80,443,8000-8002".toList) _ (by decide)


/-- C8: for a range token `A-B` whose two bounds are in-range integers,
`expandPortSpec` fails exactly when `A > B`, and succeeds with the inclusive
interval `[A..B]` when `A ≤ B`; in particular the degenerate range `A-A` is
valid and contributes the single port `A`. -/
theorem c8_range_token_inverted_iff_error (a b : Int) (ha : 1 ≤ a ∧ a ≤ 65535) (hb : 1 ≤ b ∧ b ≤ 65535) :
    (b < a → isErr (expandPortSpec (intToDigits a ++ '-' :: intToDigits b)) = true) ∧
    (a ≤ b → expandPortSpec (intToDigits a ++ '-' :: intToDigits b) = .ok (rangeList a b)) := by
  set tok := intToDigits a ++ '-' :: intToDigits b with htok
  have hnospace : ∀ c ∈ tok, goIsSpace c = false := by
    intro c hc
    rcases List.mem_append.mp hc with hc | hc
    · exact goIsSpace_of_isDigitCh ((natToDigits_spec _).2.1 c hc)
    · rcases List.mem_cons.mp hc with rfl | hc
      · decide
      · exact goIsSpace_of_isDigitCh ((natToDigits_spec _).2.1 c hc)
  have htr : trimSpace tok = tok := trimSpace_eq_self_of_no_space hnospace
  have hne : tok ≠ [] := by
    rw [htok]
    intro hc
    rcases List.append_eq_nil.mp hc with ⟨-, h2⟩
    cases h2
  have hmem : '-' ∈ tok := by
    rw [htok]
    exact List.mem_append.mpr (Or.inr (List.mem_cons_self _ _))
  have hsf : splitFirst '-' tok = some (intToDigits a, intToDigits b) := by
    rw [htok]
    exact splitFirst_append '-' _ (not_mem_natToDigits_of_not_digit (by decide))
  have hsplit : splitCh ',' tok = [tok] := by
    apply splitCh_of_not_mem
    intro hc
    rcases List.mem_append.mp hc with hc | hc
    · exact not_mem_natToDigits_of_not_digit (by decide) hc
    · rcases List.mem_cons.mp hc with hc | hc
      · exact absurd hc (by decide)
      · exact not_mem_natToDigits_of_not_digit (by decide) hc
  have hppr : parsePortRange tok =
      if a > b then .error "range start > end" else .ok (a, b) := by
    unfold parsePortRange
    rw [htr, if_neg hne]
    simp only [hsf, trimSpace_intToDigits]
    rw [if_neg (by push_neg; exact ⟨(natToDigits_spec _).1, (natToDigits_spec _).1⟩)]
    simp only [parseSinglePort_intToDigits ha.1 ha.2, parseSinglePort_intToDigits hb.1 hb.2]
  constructor
  · intro hlt
    apply expandPortSpec_isErr_of_mem (t := tok)
    · rw [htr, hsplit]
      exact List.mem_singleton.mpr rfl
    · unfold tokenStep
      rw [htr, if_neg hne, if_pos hmem]
      simp only [hppr, if_pos (show a > b by omega)]
      rfl
  · intro hle
    have hstep : tokenStep tok = .ok (.inr (a, b)) := by
      refine tokenStep_inr_iff.mpr ⟨?_, ?_, ?_⟩
      · rw [htr]; exact hne
      · rw [htr]; exact hmem
      · rw [htr, hppr, if_neg (by omega : ¬a > b)]
    refine expandPortSpec_ok_iff.mpr ⟨?_, ?_, ?_⟩
    · rw [htr]; exact hne
    · rw [htr, hsplit]
      intro t ht
      rw [List.mem_singleton] at ht
      subst ht
      exact ⟨_, hstep⟩
    · rw [htr, hsplit]
      have h1 : singlesOf [tok] = [] := by
        rw [singlesOf, List.filterMap_cons]
        simp only [hstep]
        rfl
      have h2 : rangesOf [tok] = [(a, b)] := by
        rw [rangesOf, List.filterMap_cons]
        simp only [hstep]
        rfl
      rw [h1, h2]
      rw [show (([(a, b)] : List (Int × Int)).flatMap fun ab => rangeList ab.1 ab.2) =
        rangeList a b from by simp]
      rw [List.nil_append]
      exact (sortedDedup_eq_self (rangeList_sorted_lt a b)).symm

/-- Witness for C8 at concrete inputs: "5-3" fails; "100-100" expands to
exactly [100]. -/
theorem c8_range_token_inverted_iff_error_witness :
    isErr (expandPortSpec (intToDigits 5 ++ '-' :: intToDigits 3)) = true ∧
      expandPortSpec (intToDigits 100 ++ '-' :: intToDigits 100) = .ok [100] := by
  constructor
  · exact (c8_range_token_inverted_iff_error 5 3 (by decide) (by decide)).1 (by decide)
  · have h := (c8_range_token_inverted_iff_error 100 100 (by decide) (by decide)).2 (by decide)
    rwa [rangeList_self] at h


/-- C1: for every scan run — modelled by an arbitrary split of the plan into
worker shares (each planned port handed to exactly one worker), a reachability
oracle for `scanPort`, and an arbitrary interleaving of the workers' published
results — the final open-port list is sorted ascending and contains only ports
of the originally requested plan, regardless of worker count or publish
order. -/
theorem c1_scan_result_sorted_and_in_plan
    (plan received : List Int) (shares : List (List Int)) (openp : Int → Bool)
    (hdisp : List.Perm shares.flatten plan)
    (hrecv : List.Perm received (shares.map (workerOutputs openp)).flatten) :
    List.Sorted (· ≤ ·) (finalOpenPorts received) ∧
      ∀ p ∈ finalOpenPorts received, p ∈ plan := by
  constructor
  · exact List.sorted_insertionSort _ _
  · intro p hp
    have h1 : p ∈ received := (List.perm_insertionSort _ _).subset hp
    have h2 := hrecv.subset h1
    rw [List.mem_flatten] at h2
    obtain ⟨s, hs, hps⟩ := h2
    rw [List.mem_map] at hs
    obtain ⟨sh, hsh, rfl⟩ := hs
    unfold workerOutputs at hps
    have h3 : p ∈ sh := List.mem_of_mem_filter hps
    exact hdisp.subset (List.mem_flatten.mpr ⟨sh, hsh, h3⟩)

/-- Witness for C1: two workers over the plan [22, 80, 443], with 22 and 443
reachable, publishing out of order. -/
theorem c1_scan_result_sorted_and_in_plan_witness :
    List.Sorted (· ≤ ·) (finalOpenPorts [443, 22]) ∧
      ∀ p ∈ finalOpenPorts [443, 22], p ∈ [22, 80, 443] :=
  c1_scan_result_sorted_and_in_plan [22, 80, 443] [443, 22] [[22, 80], [443]]
    (fun p => p == 22 || p == 443) (by decide) (by decide)

/-- C2: `expandPortSpec` applied to "80,443,8000-8002" succeeds and returns
exactly the ascending sequence [80, 443, 8000, 8001, 8002]. -/
theorem c2_expand_mixed_example :
    expandPortSpec ("80,443,8000-8002".toList) = .ok [80, 443, 8000, 8001, 8002] := by
  decide

/-- C3: whenever `expandPortSpec` succeeds, the returned sequence is strictly
ascending, duplicate-free, and every element lies in [1, 65535]; overlapping
singles and ranges collapse silently rather than being an error (the witness
expands "80,80,443"). -/
theorem c3_expand_output_invariants (spec : List Char) (S : List Int)
    (h : expandPortSpec spec = .ok S) :
    List.Sorted (· < ·) S ∧ S.Nodup ∧ ∀ p ∈ S, 1 ≤ p ∧ p ≤ 65535 :=
  expandPortSpec_ok_facts h

/-- Witness for C3: the duplicated spec "80,80,443" expands without error to
the strictly ascending duplicate-free in-range list [80, 443]. -/
theorem c3_expand_output_invariants_witness :
    List.Sorted (· < ·) ([80, 443] : List Int) ∧ ([80, 443] : List Int).Nodup ∧
      ∀ p ∈ ([80, 443] : List Int), 1 ≤ p ∧ p ≤ 65535 :=
  c3_expand_output_invariants ("80,80,443".toList) [80, 443] (by decide)

/-- C9: a single-port token with a leading plus sign is accepted, because
`strconv.Atoi` accepts an optional sign: `expandPortSpec "+80"` succeeds and
returns the same set as `expandPortSpec "80"`, namely [80]. -/
theorem c9_plus_sign_accepted :
    expandPortSpec ("+80".toList) = .ok [80] ∧
      expandPortSpec ("+80".toList) = expandPortSpec ("80".toList) := by
  decide


end Portscan
